import Mathlib

/-!
Verification of the chunk-pruning optimizer rule (`ChunkPruningRule` in
`chunk_pruning_rule.cpp`) of the Hyrise repository.

The rule walks a logical query plan (LQP) upward from every stored-table
leaf node, collects predicate chains, computes per-predicate chunk
exclusion sets from per-chunk segment statistics, intersects the
per-chain exclusion sets, writes the final pruned chunk ids onto the
stored-table node, and corrects the node's table statistics.

The embedding below translates the rule's functions one by one.
External collaborators of the rule (expression normalization, segment
filters, lossless casting, the LQP traversal primitive and the assertion
macro) are not part of the source under verification; those few pieces
are modelled from the specification and are marked as such in their
doc comments.  Mutable members of `StoredTableNode` and of the rule
object are threaded through an explicit state record.
-/

namespace CPR

abbrev ChunkID := Nat
abbrev NodeId := Nat
abbrev ColumnID := Nat

/-- Closed set of column data types, a reduced model of `DataType`. -/
inductive DataType
  | intT
  | floatT
  | stringT
deriving DecidableEq

/-- Model of `std::is_arithmetic_v<ColumnDataType>` for the closed set of
column types: all numeric types are arithmetic, strings are not. -/
def isArithmetic : DataType → Bool
  | DataType.stringT => false
  | _ => true

/-- Reduced model of `PredicateCondition`. -/
inductive PredicateCondition
  | equals
  | notEquals
  | lessThan
  | lessThanEquals
  | greaterThan
  | greaterThanEquals
  | betweenInclusive
deriving DecidableEq

/-- Scalar values (`AllTypeVariant`) are modelled as rationals, which is
enough to express integral values as well as values with fractional
precision that cannot be cast losslessly to an integral column. -/
abbrev AllTypeVariant := ℚ

/-- Model of `AllParameterVariant`: either a plain scalar variant, a
column reference, or a placeholder. -/
inductive AllParameterVariant
  | variant (v : AllTypeVariant)
  | column (c : ColumnID)
  | placeholder (n : Nat)
deriving DecidableEq

/-- Model of `is_variant`: true exactly on plain scalar values. -/
def is_variant : AllParameterVariant → Bool
  | AllParameterVariant.variant _ => true
  | _ => false

/-- Model of `boost::get<AllTypeVariant>` at call sites where the operand
is known to be a plain variant; defaults to `0` otherwise. -/
def variantValueD : AllParameterVariant → AllTypeVariant
  | AllParameterVariant.variant v => v
  | _ => 0

/-- Modelled from the spec: `lossless_variant_cast` (from
`lossless_cast.hpp`, not part of the source under verification) casts a
value into a column's declared type and fails when the cast would lose
information; in this model a value with a fractional part cannot be cast
to an integral column. -/
def lossless_variant_cast (v : AllTypeVariant) (dt : DataType) : Option AllTypeVariant :=
  match dt with
  | DataType.intT => if v.den = 1 then some v else none
  | _ => some v

/-- Modelled from the spec: a segment-statistics filter (`MinMaxFilter` /
`RangeFilter`, not part of the source under verification) is a black box
answering the query "does this segment definitely not contain a value
satisfying the predicate".  The answer function is carried as data. -/
structure Filter where
  does_not_contain : PredicateCondition → AllTypeVariant → Option AllTypeVariant → Bool

/-- Model of `AttributeStatistics` as consumed by `_can_prune`: a data
type together with the two optional filters. -/
structure SegmentStatistics where
  data_type : DataType
  range_filter : Option Filter
  min_max_filter : Option Filter

/-- Translation of `ChunkPruningRule::_can_prune`: the range filter is
consulted only for arithmetic column types, the min/max filter always;
a chunk can be pruned if either available filter contradicts the
predicate. -/
def can_prune (seg : SegmentStatistics) (condition : PredicateCondition)
    (variant_value : AllTypeVariant) (variant_value2 : Option AllTypeVariant) : Bool :=
  let fromRange :=
    if isArithmetic seg.data_type then
      match seg.range_filter with
      | some f => f.does_not_contain condition variant_value variant_value2
      | none => false
    else false
  let fromMinMax :=
    match seg.min_max_filter with
    | some f => f.does_not_contain condition variant_value variant_value2
    | none => false
  fromRange || fromMinMax

/-- Per-column statistics objects are modelled freely: a base object plus
the two transformations `scaled` and `pruned` applied to it, so that a
theorem can state exactly which transformation the rule applied. -/
inductive ColumnStatistics
  | base (id : Nat)
  | scaled (factor : ℚ) (s : ColumnStatistics)
  | pruned (num_rows : Nat) (condition : PredicateCondition)
      (v : AllTypeVariant) (v2 : Option AllTypeVariant) (s : ColumnStatistics)
deriving DecidableEq

/-- Model of `TableStatistics`: a row count (a float in the source,
modelled exactly as a rational) and one statistics object per column. -/
structure TableStatistics where
  column_statistics : List ColumnStatistics
  row_count : ℚ
deriving DecidableEq

/-- Model of `OperatorScanPredicate`: one normalized scan predicate. -/
structure OperatorScanPredicate where
  column_id : ColumnID
  predicate_condition : PredicateCondition
  value : AllParameterVariant
  value2 : Option AllParameterVariant
deriving DecidableEq

/-- Translation of `ChunkPruningRule::_prune_table_statistics`: the
column targeted by the predicate gets `pruned`, every other column gets
`scaled` with factor `1 - num_rows_pruned / row_count`, and the row
count decreases by `num_rows_pruned`. -/
def prune_table_statistics (old_statistics : TableStatistics)
    (predicate : OperatorScanPredicate) (num_rows_pruned : Nat) : TableStatistics :=
  let scale : ℚ := 1 - (num_rows_pruned : ℚ) / old_statistics.row_count
  { column_statistics :=
      old_statistics.column_statistics.enum.map (fun p =>
        if p.1 = predicate.column_id then
          ColumnStatistics.pruned num_rows_pruned predicate.predicate_condition
            (variantValueD predicate.value) (Option.map variantValueD predicate.value2) p.2
        else
          ColumnStatistics.scaled scale p.2),
    row_count := old_statistics.row_count - (num_rows_pruned : ℚ) }

/-- Model of a `Chunk`: a row count and the optional per-column pruning
statistics snapshot. -/
structure Chunk where
  size : Nat
  pruning_statistics : Option (List SegmentStatistics)

/-- Model of a `Table`: the full (non-column-pruned) column data types,
the chunks (`get_chunk` may return a null pointer, hence `Option`), and
the baseline table statistics. -/
structure Table where
  column_data_types : List DataType
  chunks : List (Option Chunk)
  table_statistics : TableStatistics

/-- Model of the storage manager: table lookup by name (names are
numeric tags here). -/
structure StorageManager where
  tables : List (Nat × Table)

def getTable (sm : StorageManager) (tableName : Nat) : Table :=
  (sm.tables.lookup tableName).getD ⟨[], [], ⟨[], 0⟩⟩

/-- Data type of the column a normalized predicate targets, read from
the full (non-column-pruned) schema, as the source does through its
clone of the stored-table node without column pruning. -/
def colType (table : Table) (op : OperatorScanPredicate) : DataType :=
  (table.column_data_types.get? op.column_id).getD DataType.intT

/-- Modelled from the spec: a predicate expression.  The expression
machinery (`AbstractExpression`, `visit_expression`,
`OperatorScanPredicate::from_expression`) is an external collaborator
consumed as a black box, so the expression carries exactly the two
observations the rule makes of it: the original nodes of its column
references, and the result of normalization against the full
(non-column-pruned) schema — `none` when the predicate is not
expressible as column-vs-scalar comparisons. -/
structure Expression where
  column_origins : List NodeId
  normalized : Option (List OperatorScanPredicate)

/-- Closed set of LQP node kinds used by the rule. -/
inductive NodeKind
  | predicateNode
  | validateNode
  | storedTableNode
  | joinNode
  | aliasNode
  | projectionNode
  | sortNode
  | otherNode
deriving DecidableEq

/-- Model of one LQP node: its kind, its consumers (`outputs`), and for
predicate nodes the wrapped expression, for stored-table nodes the table
name. -/
structure LQPNode where
  kind : NodeKind
  outputs : List NodeId
  predicate : Expression
  table_name : Nat

/-- An LQP: identity-keyed nodes of a DAG. -/
structure Plan where
  nodes : List (NodeId × LQPNode)

def Plan.node (p : Plan) (i : NodeId) : LQPNode :=
  (p.nodes.lookup i).getD ⟨NodeKind.otherNode, [], ⟨[], none⟩, 0⟩

/-- Modelled from the spec: `lqp_find_leafs<StoredTableNode>` collects
the stored-table leaf nodes of the plan. -/
def storedTableNodes (p : Plan) : List NodeId :=
  p.nodes.filterMap (fun q => if q.2.kind = NodeKind.storedTableNode then some q.1 else none)

/-- Translation of `ChunkPruningRule::_is_non_filtering_node`. -/
def is_non_filtering_node (n : LQPNode) : Bool :=
  n.kind = NodeKind.aliasNode || n.kind = NodeKind.projectionNode || n.kind = NodeKind.sortNode

/-- The chain-compatible node kinds of the visitor inside
`find_predicate_chains_recursively`: Predicate, Validate, StoredTable,
Join, or a non-filtering node. -/
def chainCompatible (n : LQPNode) : Bool :=
  n.kind = NodeKind.predicateNode || n.kind = NodeKind.validateNode ||
  n.kind = NodeKind.storedTableNode || n.kind = NodeKind.joinNode ||
  is_non_filtering_node n

/-- Translation of the `visit_expression` check inside
`find_predicate_chains_recursively`: every column reference of the
predicate must resolve to the stored-table node under consideration. -/
def predicate_matches_table (e : Expression) (stn : NodeId) : Bool :=
  e.column_origins.all (fun o => o = stn)

/-- Translation of `ChunkPruningRule::find_predicate_chains_recursively`.
The external traversal primitive `visit_lqp_upwards` is inlined
according to its contract (upward walk with per-node visit control): a
chain-compatible node appends itself to the accumulating chain when it
is a predicate matching the table, then the walk continues through a
single consumer, or branches — one fresh recursion per consumer, each
with a copy of the accumulated chain, the current call stopping there —
when there are several consumers; a non-chain-compatible node ends the
chain and emits it.  Chains are ordered sequences of predicate-node
identities.  The `fuel` argument bounds the recursion depth (the plan is
a DAG, so any fuel at least the number of nodes is enough). -/
def find_predicate_chains_recursively (plan : Plan) :
    Nat → NodeId → NodeId → List NodeId → List (List NodeId)
  | 0, _, _, _ => []
  | fuel + 1, stn, nodeId, current_predicate_chain =>
    let nd := plan.node nodeId
    if chainCompatible nd = true then
      let chain :=
        if nd.kind = NodeKind.predicateNode ∧ predicate_matches_table nd.predicate stn = true then
          current_predicate_chain ++ [nodeId]
        else current_predicate_chain
      match nd.outputs with
      | [] => []
      | [o] => find_predicate_chains_recursively plan fuel stn o chain
      | o1 :: o2 :: rest =>
        ((o1 :: o2 :: rest).map
          (fun o => find_predicate_chains_recursively plan fuel stn o chain)).flatten
    else [current_predicate_chain]

/-- Mutable fields of a `StoredTableNode` that the rule touches.  The
`pruned_chunk_ids` vector is kept sorted and duplicate-free by the
source (it is written from a `std::set`) and is read by the rule only
through membership tests and an emptiness test, so it is modelled by its
set of entries. -/
structure ScanState where
  pruned_chunk_ids : Finset ChunkID
  table_statistics : Option TableStatistics
deriving DecidableEq

/-- State threaded through one run of the rule: the memo
(`_excluded_chunk_ids_by_predicate_node`, a mutable member of the rule
object), the mutable fields of every stored-table node, and a ghost
counter of how many per-chunk statistics scans were performed (one per
non-memoized predicate-node evaluation). -/
structure RuleState where
  memo : List (NodeId × Finset ChunkID)
  scans : List (NodeId × ScanState)
  statistics_scans : Nat
deriving DecidableEq

def getScanM (m : List (NodeId × ScanState)) (i : NodeId) : ScanState :=
  (m.lookup i).getD ⟨∅, none⟩

def setScan (m : List (NodeId × ScanState)) (i : NodeId) (s : ScanState) :
    List (NodeId × ScanState) :=
  (i, s) :: m

/-- Translation of the chunk loop inside `_compute_exclude_list`: walk
the chunks, skip missing chunks and chunks without pruning statistics,
and for each chunk whose segment statistics contradict the predicate
insert its id into the local exclusion set; its rows are counted only
when the chunk is not already among the node's pruned chunk ids.
Returns the excluded ids and `num_rows_pruned`. -/
def chunkLoopGo (already_pruned_chunk_ids : Finset ChunkID) (columnId : ColumnID)
    (condition : PredicateCondition) (v : AllTypeVariant) (v2 : Option AllTypeVariant) :
    List (Option Chunk) → ChunkID → Finset ChunkID × Nat
  | [], _ => (∅, 0)
  | oc :: rest, chunkId =>
    let r := chunkLoopGo already_pruned_chunk_ids columnId condition v v2 rest (chunkId + 1)
    match oc with
    | none => r
    | some chunk =>
      match chunk.pruning_statistics with
      | none => r
      | some pstats =>
        let seg := (pstats.get? columnId).getD ⟨DataType.intT, none, none⟩
        if can_prune seg condition v v2 then
          (insert chunkId r.1,
           if chunkId ∈ already_pruned_chunk_ids then r.2 else r.2 + chunk.size)
        else r

/-- Core of the per-tuple processing in `_compute_exclude_list`, after
both values have been cast losslessly: run the chunk loop, and when any
rows were newly pruned replace the node's statistics override by
`_prune_table_statistics` applied to the current override (or, absent
one, the table's baseline statistics). -/
def processOpCore (table : Table) (stn : NodeId) (op : OperatorScanPredicate)
    (v : AllTypeVariant) (v2 : Option AllTypeVariant)
    (acc : Finset ChunkID × List (NodeId × ScanState)) :
    Finset ChunkID × List (NodeId × ScanState) :=
  let sc := getScanM acc.2 stn
  let r := chunkLoopGo sc.pruned_chunk_ids op.column_id op.predicate_condition v v2 table.chunks 0
  let scans2 :=
    if 0 < r.2 then
      let old := sc.table_statistics.getD table.table_statistics
      setScan acc.2 stn ⟨sc.pruned_chunk_ids, some (prune_table_statistics old op r.2)⟩
    else acc.2
  (acc.1 ∪ r.1, scans2)

/-- Translation of the body of the `operator_predicate` loop in
`_compute_exclude_list`: a tuple whose value (or second value) is not a
plain variant or cannot be cast losslessly to the column's data type is
skipped, leaving the accumulator untouched; otherwise the chunk loop
runs and the statistics correction is applied. -/
def processOp (table : Table) (stn : NodeId) (op : OperatorScanPredicate)
    (acc : Finset ChunkID × List (NodeId × ScanState)) :
    Finset ChunkID × List (NodeId × ScanState) :=
  match op.value with
  | AllParameterVariant.variant rv =>
    match lossless_variant_cast rv (colType table op) with
    | none => acc
    | some v =>
      match op.value2 with
      | none => processOpCore table stn op v none acc
      | some (AllParameterVariant.variant rw) =>
        match lossless_variant_cast rw (colType table op) with
        | none => acc
        | some v2 => processOpCore table stn op v (some v2) acc
      | some _ => acc
  | _ => acc

/-- Result of evaluating one predicate node of a chain: either an
exclusion set together with the updated state, or the abort of the whole
chain computation (the `return {}` of the source) with the state as it
stood. -/
inductive StepResult
  | ok (s : Finset ChunkID) (st : RuleState)
  | abort (st : RuleState)
deriving DecidableEq

def StepResult.state : StepResult → RuleState
  | StepResult.ok _ st => st
  | StepResult.abort st => st

/-- Translation of the body of the predicate-chain loop in
`_compute_exclude_list` for one predicate node: a memo hit returns the
stored exclusion set unchanged; otherwise the predicate is normalized —
failure aborts the whole chain computation — and every normalized tuple
is processed, the result being stored in the memo.  The ghost
statistics-scan counter increments once per non-memoized evaluation. -/
def evalPredicateNode (table : Table) (plan : Plan) (stn : NodeId) (pn : NodeId)
    (st : RuleState) : StepResult :=
  match st.memo.lookup pn with
  | some s => StepResult.ok s st
  | none =>
    match (plan.node pn).predicate.normalized with
    | none => StepResult.abort st
    | some ops =>
      let r := ops.foldl (fun acc op => processOp table stn op acc) (∅, st.scans)
      StepResult.ok r.1 ⟨(pn, r.1) :: st.memo, r.2, st.statistics_scans + 1⟩

/-- Translation of the predicate-chain loop of `_compute_exclude_list`:
exclusion sets of the chain's predicates are unioned; an abort discards
the accumulated union and returns the empty set with the state as it
stood, never reaching the remaining predicates. -/
def computeExcludeListGo (table : Table) (plan : Plan) (stn : NodeId) :
    List NodeId → Finset ChunkID → RuleState → Finset ChunkID × RuleState
  | [], acc, st => (acc, st)
  | pn :: rest, acc, st =>
    match evalPredicateNode table plan stn pn st with
    | StepResult.abort st2 => (∅, st2)
    | StepResult.ok s st2 => computeExcludeListGo table plan stn rest (acc ∪ s) st2

/-- Translation of `ChunkPruningRule::_compute_exclude_list`. -/
def compute_exclude_list (table : Table) (plan : Plan) (stn : NodeId)
    (predicate_chain : List NodeId) (st : RuleState) : Finset ChunkID × RuleState :=
  computeExcludeListGo table plan stn predicate_chain ∅ st

/-- Loop of `ChunkPruningRule::intersect_chunk_ids` from index 1 on:
return empty as soon as one set is empty, else fold the intersection. -/
def intersectGo : Finset ChunkID → List (Finset ChunkID) → Finset ChunkID
  | acc, [] => acc
  | acc, s :: rest => if s = ∅ then ∅ else intersectGo (acc ∩ s) rest

/-- Translation of `ChunkPruningRule::intersect_chunk_ids`: empty input
or an empty first set give the empty set, a single set is returned
directly, otherwise the sets are intersected left to right with an
early-out on an empty set. -/
def intersect_chunk_ids (chunk_id_sets : List (Finset ChunkID)) : Finset ChunkID :=
  match chunk_id_sets with
  | [] => ∅
  | s0 :: rest => if s0 = ∅ then ∅ else intersectGo s0 rest

/-- Specification-side definition for comparison: the plain set
intersection across all given sets (empty for the empty list, as the
spec prescribes for zero chains). -/
def interList : List (Finset ChunkID) → Finset ChunkID
  | [] => ∅
  | s :: rest => rest.foldl (fun a b => a ∩ b) s

/-- Step (3.1) of `_apply_to_plan_without_subqueries`: one exclusion set
per predicate chain, threading the rule state. -/
def chainExclusionSets (table : Table) (plan : Plan) (stn : NodeId)
    (chains : List (List NodeId)) (st : RuleState) :
    List (Finset ChunkID) × RuleState :=
  chains.foldl
    (fun p chain =>
      let r := compute_exclude_list table plan stn chain p.2
      (p.1 ++ [r.1], r.2))
    ([], st)

/-- Steps (3.1)-(3.2) of `_apply_to_plan_without_subqueries` for one
stored-table node: compute per-chain exclusion sets, intersect them,
skip the node when the result is empty, and otherwise — after the
assertion (modelled from the spec: `DebugAssert` aborts the pass) that
the node has no pruned chunk ids yet — write the sorted result. -/
def processStoredTableNode (plan : Plan) (sm : StorageManager) (fuel : Nat)
    (stn : NodeId) (st : RuleState) : Except Unit RuleState :=
  let chains := find_predicate_chains_recursively plan fuel stn stn []
  if chains.isEmpty then Except.ok st
  else
    let table := getTable sm (plan.node stn).table_name
    let r := chainExclusionSets table plan stn chains st
    let pruned_chunk_ids := intersect_chunk_ids r.1
    if pruned_chunk_ids = ∅ then Except.ok r.2
    else if (getScanM r.2.scans stn).pruned_chunk_ids ≠ ∅ then Except.error ()
    else
      Except.ok
        { memo := r.2.memo,
          scans := setScan r.2.scans stn
            ⟨pruned_chunk_ids, (getScanM r.2.scans stn).table_statistics⟩,
          statistics_scans := r.2.statistics_scans }

/-- Translation of `ChunkPruningRule::_apply_to_plan_without_subqueries`:
collect the stored-table nodes and process each.  The incoming
`RuleState` holds the memo member as the rule object left it and the
current mutable fields of the stored-table nodes. -/
def apply_to_plan_without_subqueries (plan : Plan) (sm : StorageManager) (fuel : Nat)
    (st : RuleState) : Except Unit RuleState :=
  (storedTableNodes plan).foldlM (fun s stn => processStoredTableNode plan sm fuel stn s) st

end CPR

namespace CPR

/-! ### Concrete example instances used by witnesses and counterexamples -/

/-- Example filter: the contradiction test succeeds exactly when the
predicate value equals `q` (a stand-in for a min/max summary that rules
the chunk out for that one value). -/
def mkFilter (q : ℚ) : Filter := ⟨fun _ v _ => v == q⟩

/-- Example chunk of `sz` rows whose single column carries a min/max
filter excluding it for predicate value `q`. -/
def mkChunk (q : ℚ) (sz : Nat) : Option Chunk :=
  some ⟨sz, some [⟨DataType.intT, none, some (mkFilter q)⟩]⟩

/-- Example table: one integral column, three chunks of ten rows, chunk
`i` excludable exactly for predicate value `i`, thirty rows of baseline
statistics. -/
def exTable : Table :=
  ⟨[DataType.intT], [mkChunk 0 10, mkChunk 1 10, mkChunk 2 10],
   ⟨[ColumnStatistics.base 0], 30⟩⟩

def exSM : StorageManager := ⟨[(0, exTable)]⟩

/-- Normalized predicate on column 0 with the given comparison value. -/
def opVal (q : ℚ) : OperatorScanPredicate :=
  ⟨0, PredicateCondition.greaterThan, AllParameterVariant.variant q, none⟩

/-- Predicate expression normalizing to the single tuple `opVal q`, all
column references resolving to node 0. -/
def exprVal (q : ℚ) : Expression := ⟨[0], some [opVal q]⟩

/-- Predicate expression whose normalization fails. -/
def exprBad : Expression := ⟨[0], none⟩

def stNode (outs : List NodeId) : LQPNode := ⟨NodeKind.storedTableNode, outs, ⟨[], none⟩, 0⟩

def pNode (e : Expression) (outs : List NodeId) : LQPNode := ⟨NodeKind.predicateNode, outs, e, 0⟩

def tNode : LQPNode := ⟨NodeKind.otherNode, [], ⟨[], none⟩, 0⟩

/-- Straight-line plan: scan 0 under two predicate nodes that both
exclude chunk 0, terminated by a non-chain-compatible node. -/
def planA : Plan :=
  ⟨[(0, stNode [1]), (1, pNode (exprVal 0) [2]), (2, pNode (exprVal 0) [3]), (3, tNode)]⟩

/-- Branching plan: scan 0 with two consumers, one predicate excluding
chunk 0, the other excluding chunk 1. -/
def planB : Plan :=
  ⟨[(0, stNode [1, 2]), (1, pNode (exprVal 0) [3]), (2, pNode (exprVal 1) [4]),
    (3, tNode), (4, tNode)]⟩

/-- Straight-line plan whose second predicate fails normalization. -/
def planC : Plan :=
  ⟨[(0, stNode [1]), (1, pNode (exprVal 0) [2]), (2, pNode exprBad [3]), (3, tNode)]⟩

/-- Straight-line plan with one predicate that excludes no chunk (its
comparison value 5 matches no chunk filter). -/
def planD : Plan :=
  ⟨[(0, stNode [1]), (1, pNode (exprVal 5) [2]), (2, tNode)]⟩

/-- Straight-line plan with one predicate that excludes chunk 0. -/
def planE : Plan :=
  ⟨[(0, stNode [1]), (1, pNode (exprVal 0) [2]), (2, tNode)]⟩

/-- Fresh rule state: empty memo, untouched scan nodes, no scans yet. -/
def st0 : RuleState := ⟨[], [], 0⟩

/-! ### Helper lemmas -/

theorem foldl_inter_empty (l : List (Finset ChunkID)) :
    l.foldl (fun a b => a ∩ b) ∅ = ∅ := by
  induction l with
  | nil => rfl
  | cons s rest ih => simpa using ih

theorem foldl_inter_empty_mem (l : List (Finset ChunkID)) :
    ∀ acc, ∅ ∈ l → l.foldl (fun a b => a ∩ b) acc = ∅ := by
  induction l with
  | nil => intro acc h; cases h
  | cons s rest ih =>
    intro acc h
    rcases List.mem_cons.mp h with h | h
    · subst h
      simpa using foldl_inter_empty rest
    · exact ih _ h

theorem intersectGo_eq_foldl (l : List (Finset ChunkID)) :
    ∀ acc, intersectGo acc l = l.foldl (fun a b => a ∩ b) acc := by
  induction l with
  | nil => intro acc; rfl
  | cons s rest ih =>
    intro acc
    by_cases hs : s = ∅
    · subst hs
      simp only [intersectGo, if_pos rfl, List.foldl_cons, Finset.inter_empty]
      exact (foldl_inter_empty rest).symm
    · simp only [intersectGo, if_neg hs, List.foldl_cons, ih]

theorem intersect_chunk_ids_eq_interList (ss : List (Finset ChunkID)) :
    intersect_chunk_ids ss = interList ss := by
  cases ss with
  | nil => rfl
  | cons s rest =>
    by_cases hs : s = ∅
    · subst hs
      simp only [intersect_chunk_ids, if_pos rfl, interList]
      exact (foldl_inter_empty rest).symm
    · simp only [intersect_chunk_ids, if_neg hs, interList, intersectGo_eq_foldl]

end CPR

namespace CPR

theorem getScanM_setScan (m : List (NodeId × ScanState)) (i j : NodeId) (s : ScanState) :
    getScanM (setScan m i s) j = if j = i then s else getScanM m j := by
  simp only [getScanM, setScan, List.lookup_cons]
  by_cases h : j = i
  · simp [h]
  · simp [h, beq_false_of_ne h]

theorem processOpCore_pruned (table : Table) (stn : NodeId) (op : OperatorScanPredicate)
    (v : AllTypeVariant) (v2 : Option AllTypeVariant)
    (acc : Finset ChunkID × List (NodeId × ScanState)) (j : NodeId) :
    (getScanM (processOpCore table stn op v v2 acc).2 j).pruned_chunk_ids =
      (getScanM acc.2 j).pruned_chunk_ids := by
  simp only [processOpCore]
  split
  · rw [getScanM_setScan]
    by_cases h : j = stn
    · simp [h]
    · simp [h]
  · rfl

theorem processOp_pruned (table : Table) (stn : NodeId) (op : OperatorScanPredicate)
    (acc : Finset ChunkID × List (NodeId × ScanState)) (j : NodeId) :
    (getScanM (processOp table stn op acc).2 j).pruned_chunk_ids =
      (getScanM acc.2 j).pruned_chunk_ids := by
  simp only [processOp]
  split
  · split
    · rfl
    · split
      · exact processOpCore_pruned ..
      · split
        · rfl
        · exact processOpCore_pruned ..
      · rfl
  · rfl

theorem foldlOps_pruned (table : Table) (stn : NodeId) (ops : List OperatorScanPredicate) :
    ∀ (acc : Finset ChunkID × List (NodeId × ScanState)) (j : NodeId),
    (getScanM (ops.foldl (fun acc op => processOp table stn op acc) acc).2 j).pruned_chunk_ids =
      (getScanM acc.2 j).pruned_chunk_ids := by
  induction ops with
  | nil => intro acc j; rfl
  | cons op rest ih =>
    intro acc j
    rw [List.foldl_cons, ih, processOp_pruned]

theorem evalPredicateNode_pruned (table : Table) (plan : Plan) (stn pn : NodeId)
    (st : RuleState) (j : NodeId) :
    (getScanM (evalPredicateNode table plan stn pn st).state.scans j).pruned_chunk_ids =
      (getScanM st.scans j).pruned_chunk_ids := by
  simp only [evalPredicateNode]
  split
  · rfl
  · split
    · rfl
    · exact foldlOps_pruned ..

theorem computeExcludeListGo_pruned (table : Table) (plan : Plan) (stn : NodeId)
    (chain : List NodeId) :
    ∀ (acc : Finset ChunkID) (st : RuleState) (j : NodeId),
    (getScanM (computeExcludeListGo table plan stn chain acc st).2.scans j).pruned_chunk_ids =
      (getScanM st.scans j).pruned_chunk_ids := by
  induction chain with
  | nil => intros; rfl
  | cons pn rest ih =>
    intro acc st j
    have h1 := evalPredicateNode_pruned table plan stn pn st j
    simp only [computeExcludeListGo]
    cases h : evalPredicateNode table plan stn pn st with
    | abort st2 =>
      rw [h] at h1
      exact h1
    | ok s st2 =>
      rw [h] at h1
      rw [ih]
      exact h1

theorem chainExclusionSets_pruned (table : Table) (plan : Plan) (stn : NodeId)
    (chains : List (List NodeId)) :
    ∀ (p : List (Finset ChunkID) × RuleState) (j : NodeId),
    (getScanM (chains.foldl
        (fun p chain =>
          let r := compute_exclude_list table plan stn chain p.2
          (p.1 ++ [r.1], r.2)) p).2.scans j).pruned_chunk_ids =
      (getScanM p.2.scans j).pruned_chunk_ids := by
  induction chains with
  | nil => intros; rfl
  | cons chain rest ih =>
    intro p j
    rw [List.foldl_cons, ih]
    exact computeExcludeListGo_pruned ..

end CPR

namespace CPR

theorem chainExclusionSetsDef_pruned (table : Table) (plan : Plan) (stn : NodeId)
    (chains : List (List NodeId)) (st : RuleState) (j : NodeId) :
    (getScanM (chainExclusionSets table plan stn chains st).2.scans j).pruned_chunk_ids =
      (getScanM st.scans j).pruned_chunk_ids :=
  chainExclusionSets_pruned table plan stn chains ([], st) j

theorem evalPredicateNode_memo_mono (table : Table) (plan : Plan) (stn pn : NodeId)
    (st : RuleState) (q : NodeId) (s : Finset ChunkID)
    (h : st.memo.lookup q = some s) :
    (evalPredicateNode table plan stn pn st).state.memo.lookup q = some s := by
  simp only [evalPredicateNode]
  cases hm : st.memo.lookup pn with
  | some s2 => simpa [StepResult.state] using h
  | none =>
    cases hn : (plan.node pn).predicate.normalized with
    | none => simpa [StepResult.state] using h
    | some ops =>
      simp only [StepResult.state, List.lookup_cons]
      have hqpn : q ≠ pn := by
        intro he
        rw [he, hm] at h
        cases h
      simp [beq_false_of_ne hqpn, h]

theorem computeExcludeListGo_memo_mono (table : Table) (plan : Plan) (stn : NodeId)
    (chain : List NodeId) :
    ∀ (acc : Finset ChunkID) (st : RuleState) (q : NodeId) (s : Finset ChunkID),
    st.memo.lookup q = some s →
    (computeExcludeListGo table plan stn chain acc st).2.memo.lookup q = some s := by
  induction chain with
  | nil => intro acc st q s h; exact h
  | cons pn rest ih =>
    intro acc st q s h
    have h1 := evalPredicateNode_memo_mono table plan stn pn st q s h
    simp only [computeExcludeListGo]
    cases he : evalPredicateNode table plan stn pn st with
    | abort st2 =>
      rw [he] at h1
      exact h1
    | ok s2 st2 =>
      rw [he] at h1
      exact ih _ _ _ _ h1

theorem chainExclusionSets_memo_mono (table : Table) (plan : Plan) (stn : NodeId)
    (chains : List (List NodeId)) :
    ∀ (p : List (Finset ChunkID) × RuleState) (q : NodeId) (s : Finset ChunkID),
    p.2.memo.lookup q = some s →
    (chains.foldl
        (fun p chain =>
          let r := compute_exclude_list table plan stn chain p.2
          (p.1 ++ [r.1], r.2)) p).2.memo.lookup q = some s := by
  induction chains with
  | nil => intro p q s h; exact h
  | cons chain rest ih =>
    intro p q s h
    rw [List.foldl_cons]
    exact ih _ _ _ (computeExcludeListGo_memo_mono table plan stn chain ∅ p.2 q s h)

theorem processStoredTableNode_memo_mono (plan : Plan) (sm : StorageManager) (fuel : Nat)
    (stn : NodeId) (st st2 : RuleState)
    (hok : processStoredTableNode plan sm fuel stn st = Except.ok st2)
    (q : NodeId) (s : Finset ChunkID) (h : st.memo.lookup q = some s) :
    st2.memo.lookup q = some s := by
  have hmono := chainExclusionSets_memo_mono
    (getTable sm (plan.node stn).table_name) plan stn
    (find_predicate_chains_recursively plan fuel stn stn []) ([], st) q s h
  simp only [processStoredTableNode] at hok
  split at hok
  · cases hok
    exact h
  · split at hok
    · cases hok
      exact hmono
    · split at hok
      · cases hok
      · cases hok
        exact hmono

theorem apply_memo_mono (plan : Plan) (sm : StorageManager) (fuel : Nat) :
    ∀ (stns : List NodeId) (st res : RuleState),
    stns.foldlM (fun s stn => processStoredTableNode plan sm fuel stn s) st = Except.ok res →
    ∀ (q : NodeId) (s : Finset ChunkID),
    st.memo.lookup q = some s → res.memo.lookup q = some s := by
  intro stns
  induction stns with
  | nil =>
    intro st res h q s hq
    cases h
    exact hq
  | cons stn rest ih =>
    intro st res h q s hq
    rw [List.foldlM_cons] at h
    cases hstep : processStoredTableNode plan sm fuel stn st with
    | error e =>
      rw [hstep] at h
      cases h
    | ok st1 =>
      rw [hstep] at h
      exact ih st1 res h q s
        (processStoredTableNode_memo_mono plan sm fuel stn st st1 hstep q s hq)

end CPR

namespace CPR

/-- C1: for every stored-table-scan node the final pruned-chunk set the
rule writes equals the set intersection of the exclusion sets of all
predicate chains found for that scan (`interList`); with zero chains, or
when any chain's exclusion set is empty, the final set is empty and the
scan is left unpruned (the rule skips the write); with exactly one chain
its exclusion set is used directly. -/
theorem scan_final_pruned_set_is_intersection_of_chains :
    (∀ ss : List (Finset ChunkID), intersect_chunk_ids ss = interList ss)
    ∧ intersect_chunk_ids [] = ∅
    ∧ (∀ (ss : List (Finset ChunkID)) (s : Finset ChunkID), s ∈ ss → s = ∅ →
        intersect_chunk_ids ss = ∅)
    ∧ (∀ s : Finset ChunkID, intersect_chunk_ids [s] = s)
    ∧ (∀ (plan : Plan) (sm : StorageManager) (fuel : Nat) (stn : NodeId) (st : RuleState),
        processStoredTableNode plan sm fuel stn st =
          (let chains := find_predicate_chains_recursively plan fuel stn stn []
           let table := getTable sm (plan.node stn).table_name
           let r := chainExclusionSets table plan stn chains st
           let pruned := intersect_chunk_ids r.1
           if pruned = ∅ then Except.ok r.2
           else if (getScanM r.2.scans stn).pruned_chunk_ids ≠ ∅ then Except.error ()
           else Except.ok
             { memo := r.2.memo,
               scans := setScan r.2.scans stn
                 ⟨pruned, (getScanM r.2.scans stn).table_statistics⟩,
               statistics_scans := r.2.statistics_scans }))
    ∧ (∀ (table : Table) (plan : Plan) (stn : NodeId) (chains : List (List NodeId))
        (st : RuleState) (j : NodeId),
        (getScanM (chainExclusionSets table plan stn chains st).2.scans j).pruned_chunk_ids =
          (getScanM st.scans j).pruned_chunk_ids) := by
  refine ⟨intersect_chunk_ids_eq_interList, rfl, ?_, ?_, ?_, chainExclusionSetsDef_pruned⟩
  · intro ss s hmem hs
    subst hs
    rw [intersect_chunk_ids_eq_interList]
    cases ss with
    | nil => cases hmem
    | cons s0 rest =>
      rcases List.mem_cons.mp hmem with h | h
      · rw [← h]
        simpa [interList] using foldl_inter_empty rest
      · simp only [interList]
        exact foldl_inter_empty_mem rest s0 h
  · intro s
    by_cases hs : s = ∅
    · subst hs; rfl
    · simp [intersect_chunk_ids, hs, intersectGo]
  · intro plan sm fuel stn st
    simp only [processStoredTableNode]
    by_cases hc : (find_predicate_chains_recursively plan fuel stn stn []).isEmpty
    · rw [if_pos hc]
      have he : find_predicate_chains_recursively plan fuel stn stn [] = [] :=
        List.isEmpty_iff.mp hc
      rw [he]
      rfl
    · rw [if_neg hc]

/-- C1 witness: a chain with an empty exclusion set forces an empty
final set on a concrete input. -/
theorem scan_final_pruned_set_is_intersection_of_chains_witness :
    intersect_chunk_ids [({0} : Finset ChunkID), ∅] = ∅ :=
  scan_final_pruned_set_is_intersection_of_chains.2.2.1 [{0}, ∅] ∅ (by simp) rfl

/-- C8: during the upward walk, a predicate node whose column references
all resolve to the scan is appended to the accumulating chain; a
predicate node with a column reference resolving elsewhere is skipped
while the walk continues past it; at a node with more than one consumer,
the walk recurses once per consumer, each recursion starting from a copy
of the chain accumulated so far, the current call not continuing past
that node, and the resulting chains are the flattened collection over
all branches. -/
theorem predicate_chain_walk_behavior :
    (∀ (plan : Plan) (fuel : Nat) (stn id : NodeId) (chain : List NodeId) (o : NodeId),
      (plan.node id).kind = NodeKind.predicateNode →
      predicate_matches_table (plan.node id).predicate stn = true →
      (plan.node id).outputs = [o] →
      find_predicate_chains_recursively plan (fuel + 1) stn id chain =
        find_predicate_chains_recursively plan fuel stn o (chain ++ [id]))
    ∧ (∀ (plan : Plan) (fuel : Nat) (stn id : NodeId) (chain : List NodeId) (o : NodeId),
      (plan.node id).kind = NodeKind.predicateNode →
      predicate_matches_table (plan.node id).predicate stn = false →
      (plan.node id).outputs = [o] →
      find_predicate_chains_recursively plan (fuel + 1) stn id chain =
        find_predicate_chains_recursively plan fuel stn o chain)
    ∧ (∀ (plan : Plan) (fuel : Nat) (stn id : NodeId) (chain : List NodeId)
        (o1 o2 : NodeId) (rest : List NodeId),
      chainCompatible (plan.node id) = true →
      (plan.node id).outputs = o1 :: o2 :: rest →
      find_predicate_chains_recursively plan (fuel + 1) stn id chain =
        ((o1 :: o2 :: rest).map (fun o =>
          find_predicate_chains_recursively plan fuel stn o
            (if (plan.node id).kind = NodeKind.predicateNode ∧
                predicate_matches_table (plan.node id).predicate stn = true
             then chain ++ [id] else chain))).flatten) := by
  refine ⟨?_, ?_, ?_⟩
  · intro plan fuel stn id chain o hk hm ho
    have hcc : chainCompatible (plan.node id) = true := by
      simp [chainCompatible, hk]
    simp only [find_predicate_chains_recursively]
    rw [if_pos hcc, ho]
    rw [if_pos ⟨hk, hm⟩]
  · intro plan fuel stn id chain o hk hm ho
    have hcc : chainCompatible (plan.node id) = true := by
      simp [chainCompatible, hk]
    simp only [find_predicate_chains_recursively]
    rw [if_pos hcc, ho]
    rw [if_neg (by simp [hm])]
  · intro plan fuel stn id chain o1 o2 rest hcc ho
    simp only [find_predicate_chains_recursively]
    rw [if_pos hcc, ho]

/-- C8 witness: concrete instance of the matching-predicate step on
`planE` (node 1 is a matching predicate over scan 0 with single
consumer 2). -/
theorem predicate_chain_walk_behavior_witness :
    find_predicate_chains_recursively planE 1 0 1 [] =
      find_predicate_chains_recursively planE 0 0 2 [1] :=
  predicate_chain_walk_behavior.1 planE 0 0 1 [] 2 (by decide) (by decide) (by decide)

/-- C4: if evaluating a predicate node yields an exclusion set, the memo
afterwards maps that node to exactly that set, and evaluating the same
node again returns the same exclusion set with the state unchanged — in
particular the ghost per-chunk statistics-scan counter does not move, so
the underlying per-chunk statistics scan runs at most once per rule
application for that node. -/
theorem memoized_predicate_evaluation_idempotent
    (table : Table) (plan : Plan) (stn pn : NodeId) (st : RuleState)
    (s : Finset ChunkID) (st2 : RuleState)
    (h : evalPredicateNode table plan stn pn st = StepResult.ok s st2) :
    st2.memo.lookup pn = some s ∧
    evalPredicateNode table plan stn pn st2 = StepResult.ok s st2 ∧
    (evalPredicateNode table plan stn pn st2).state.statistics_scans =
      st2.statistics_scans := by
  have hmem : st2.memo.lookup pn = some s := by
    simp only [evalPredicateNode] at h
    cases hm : st.memo.lookup pn with
    | some s3 =>
      rw [hm] at h
      cases h
      exact hm
    | none =>
      rw [hm] at h
      cases hn : (plan.node pn).predicate.normalized with
      | none =>
        rw [hn] at h
        cases h
      | some ops =>
        rw [hn] at h
        cases h
        simp
  have h2 : evalPredicateNode table plan stn pn st2 = StepResult.ok s st2 := by
    simp [evalPredicateNode, hmem]
  exact ⟨hmem, h2, by rw [h2]; rfl⟩

/-- C4 witness: concrete first evaluation on `planD` followed by the
memoized second evaluation. -/
theorem memoized_predicate_evaluation_idempotent_witness :
    (RuleState.mk [(1, ∅)] [] 1).memo.lookup 1 = some ∅ ∧
    evalPredicateNode exTable planD 0 1 ⟨[(1, ∅)], [], 1⟩ =
      StepResult.ok ∅ ⟨[(1, ∅)], [], 1⟩ ∧
    (evalPredicateNode exTable planD 0 1 ⟨[(1, ∅)], [], 1⟩).state.statistics_scans =
      (RuleState.mk [(1, ∅)] [] 1).statistics_scans :=
  memoized_predicate_evaluation_idempotent exTable planD 0 1 st0 ∅ ⟨[(1, ∅)], [], 1⟩
    (by decide)

end CPR

namespace CPR

attribute [local semireducible] Rat.add Rat.sub Rat.mul Rat.inv

/-- C9: a normalized tuple whose value (or second value) is not a plain
scalar variant, or cannot be cast losslessly into the column's declared
type, is silently skipped: the accumulator (exclusion set and scan
states, hence also the statistics override) is returned untouched, and
`processOp` has no fault outcome at all.  In particular a predicate
comparing an integral column against a value with fractional precision
loss prunes no chunks and raises no fault (see the witness). -/
theorem unusable_tuple_silently_skipped
    (table : Table) (stn : NodeId) (op : OperatorScanPredicate)
    (acc : Finset ChunkID × List (NodeId × ScanState))
    (h : is_variant op.value = false
       ∨ (∃ rv, op.value = AllParameterVariant.variant rv ∧
            lossless_variant_cast rv (colType table op) = none)
       ∨ (∃ w, op.value2 = some w ∧ is_variant w = false)
       ∨ (∃ rw, op.value2 = some (AllParameterVariant.variant rw) ∧
            lossless_variant_cast rw (colType table op) = none)) :
    processOp table stn op acc = acc := by
  rcases h with h | ⟨rv, hval, hcast⟩ | ⟨w, hv2, hw⟩ | ⟨rw, hv2, hcast⟩
  · cases hv : op.value with
    | variant rv => rw [hv] at h; simp [is_variant] at h
    | column c => simp [processOp, hv]
    | placeholder n => simp [processOp, hv]
  · simp [processOp, hval, hcast]
  · cases hv : op.value with
    | column c => simp [processOp, hv]
    | placeholder n => simp [processOp, hv]
    | variant rv =>
      cases hc : lossless_variant_cast rv (colType table op) with
      | none => simp [processOp, hv, hc]
      | some v =>
        cases w with
        | variant rw2 => rw [hv2] at *; simp [is_variant] at hw
        | column c => simp [processOp, hv, hc, hv2]
        | placeholder n => simp [processOp, hv, hc, hv2]
  · cases hv : op.value with
    | column c => simp [processOp, hv]
    | placeholder n => simp [processOp, hv]
    | variant rv =>
      cases hc : lossless_variant_cast rv (colType table op) with
      | none => simp [processOp, hv, hc]
      | some v => simp [processOp, hv, hc, hv2, hcast]

/-- C9 witness: comparing the integral column of `exTable` against the
fractional value one half leaves the accumulator untouched. -/
theorem unusable_tuple_silently_skipped_witness :
    processOp exTable 0
      ⟨0, PredicateCondition.greaterThan, AllParameterVariant.variant (mkRat 1 2), none⟩
      (∅, []) = (∅, []) :=
  unusable_tuple_silently_skipped exTable 0 _ (∅, [])
    (Or.inr (Or.inl ⟨mkRat 1 2, rfl, by decide⟩))

/-- C7: whenever a tuple removes a positive number of rows, the new
statistics override is built from the current override when one exists
(otherwise the table's baseline statistics) by `prune_table_statistics`,
and replaces the previous override outright; `prune_table_statistics`
applies `pruned` with the removed rows, condition and value(s) to the
targeted column, `scaled` with factor one minus removed rows over the
old row count to every other column, and decreases the row count by
exactly the removed rows. -/
theorem statistics_correction_shape :
    (∀ (old : TableStatistics) (pred : OperatorScanPredicate) (n : Nat),
      (prune_table_statistics old pred n).row_count = old.row_count - (n : ℚ))
    ∧ (∀ (old : TableStatistics) (pred : OperatorScanPredicate) (n : Nat) (i : Nat)
        (a : ColumnStatistics), old.column_statistics.get? i = some a →
        (prune_table_statistics old pred n).column_statistics.get? i =
          some (if i = pred.column_id then
                  ColumnStatistics.pruned n pred.predicate_condition
                    (variantValueD pred.value) (Option.map variantValueD pred.value2) a
                else
                  ColumnStatistics.scaled (1 - (n : ℚ) / old.row_count) a))
    ∧ (∀ (table : Table) (stn : NodeId) (op : OperatorScanPredicate)
        (v : AllTypeVariant) (v2 : Option AllTypeVariant)
        (locl : Finset ChunkID) (scans : List (NodeId × ScanState)),
        0 < (chunkLoopGo (getScanM scans stn).pruned_chunk_ids op.column_id
              op.predicate_condition v v2 table.chunks 0).2 →
        processOpCore table stn op v v2 (locl, scans) =
          (locl ∪ (chunkLoopGo (getScanM scans stn).pruned_chunk_ids op.column_id
                    op.predicate_condition v v2 table.chunks 0).1,
           setScan scans stn
             ⟨(getScanM scans stn).pruned_chunk_ids,
              some (prune_table_statistics
                ((getScanM scans stn).table_statistics.getD table.table_statistics) op
                (chunkLoopGo (getScanM scans stn).pruned_chunk_ids op.column_id
                  op.predicate_condition v v2 table.chunks 0).2)⟩)) := by
  refine ⟨?_, ?_, ?_⟩
  · intro old pred n
    rfl
  · intro old pred n i a ha
    rw [List.get?_eq_getElem?] at ha ⊢
    simp only [prune_table_statistics]
    rw [List.getElem?_map, List.getElem?_enum, ha]
    rfl
  · intro table stn op v v2 locl scans h
    simp only [processOpCore]
    rw [if_pos h]

/-- C7 witness: concrete correction for one removed chunk of ten rows
over the thirty-row baseline of `exTable`. -/
theorem statistics_correction_shape_witness :
    (prune_table_statistics exTable.table_statistics (opVal 0) 10).column_statistics.get? 0 =
      some (ColumnStatistics.pruned 10 PredicateCondition.greaterThan 0 none
        (ColumnStatistics.base 0)) := by
  have h := statistics_correction_shape.2.1 exTable.table_statistics (opVal 0) 10 0
    (ColumnStatistics.base 0) rfl
  simpa using h

/-- C5: applying the rule to a scan node whose pruned-chunk-identifier
set is already non-empty triggers the fatal precondition check —
modelled from the spec as the error outcome (loud abort in a debug
build, fatal error rather than silent overwrite in a production build) —
whenever the rule computes a non-empty final pruned set for that
scan. -/
theorem already_pruned_scan_triggers_assertion
    (plan : Plan) (sm : StorageManager) (fuel : Nat) (stn : NodeId) (st : RuleState)
    (hpruned : (getScanM st.scans stn).pruned_chunk_ids ≠ ∅)
    (hfinal : intersect_chunk_ids
        (chainExclusionSets (getTable sm (plan.node stn).table_name) plan stn
          (find_predicate_chains_recursively plan fuel stn stn []) st).1 ≠ ∅) :
    processStoredTableNode plan sm fuel stn st = Except.error () := by
  have hne : ¬ (find_predicate_chains_recursively plan fuel stn stn []).isEmpty = true := by
    intro hc
    have he : find_predicate_chains_recursively plan fuel stn stn [] = [] :=
      List.isEmpty_iff.mp hc
    rw [he] at hfinal
    exact hfinal rfl
  have hp2 := chainExclusionSetsDef_pruned (getTable sm (plan.node stn).table_name) plan stn
    (find_predicate_chains_recursively plan fuel stn stn []) st stn
  simp only [processStoredTableNode]
  rw [if_neg hne, if_neg hfinal, if_pos (by rw [hp2]; exact hpruned)]

/-- C5 witness: on `planE` the predicate excludes chunk 0, and the scan
node already carries pruned chunk 7, so the rule application aborts. -/
theorem already_pruned_scan_triggers_assertion_witness :
    processStoredTableNode planE exSM 9 0 ⟨[], [(0, ⟨{7}, none⟩)], 0⟩ = Except.error () :=
  already_pruned_scan_triggers_assertion planE exSM 9 0 ⟨[], [(0, ⟨{7}, none⟩)], 0⟩
    (by decide) (by decide)

end CPR

namespace CPR

attribute [local semireducible] Rat.add Rat.sub Rat.mul Rat.inv

theorem evalPredicateNode_memo_none (table : Table) (plan : Plan) (stn : NodeId)
    (pn q : NodeId) (st : RuleState) (hq : st.memo.lookup q = none) (hne : q ≠ pn) :
    (evalPredicateNode table plan stn pn st).state.memo.lookup q = none := by
  simp only [evalPredicateNode]
  cases hm : st.memo.lookup pn with
  | some s2 => simpa [StepResult.state] using hq
  | none =>
    cases hn : (plan.node pn).predicate.normalized with
    | none => simpa [StepResult.state] using hq
    | some ops =>
      simp only [StepResult.state, List.lookup_cons]
      simp [beq_false_of_ne hne, hq]

/-- C3 counterexample: on `planC` the chain consists of predicate node 1,
which excludes chunk 0, followed by predicate node 2, whose
normalization fails; the claim predicts that the chain's result is still
the union over the other predicates' exclusion sets — the singleton of
chunk 0 — but the code returns the empty set for the whole chain. -/
theorem normalization_failure_abort_counterexample :
    (compute_exclude_list exTable planC 0 [1, 2] st0).1 = ∅ ∧
    (∅ : Finset ChunkID) ≠ {0} := by
  exact ⟨by decide, by decide⟩

/-- C3 amended: if a predicate node of a chain fails normalization (and
was not already memoized when reached), the evaluation of the entire
chain is aborted: the chain's exclusion set is empty — previously
accumulated exclusion sets are discarded — nothing is recorded in the
memo for the failing node, and the remaining predicates of the chain are
never evaluated (the result does not depend on them at all). -/
theorem normalization_failure_aborts_whole_chain
    (table : Table) (plan : Plan) (stn : NodeId) (pn : NodeId) :
    ∀ (pre post post2 : List NodeId) (acc : Finset ChunkID) (st : RuleState),
    pn ∉ pre → st.memo.lookup pn = none →
    (plan.node pn).predicate.normalized = none →
    (computeExcludeListGo table plan stn (pre ++ pn :: post) acc st).1 = ∅ ∧
    computeExcludeListGo table plan stn (pre ++ pn :: post) acc st =
      computeExcludeListGo table plan stn (pre ++ pn :: post2) acc st := by
  intro pre
  induction pre with
  | nil =>
    intro post post2 acc st _ hm hn
    have he : evalPredicateNode table plan stn pn st = StepResult.abort st := by
      simp [evalPredicateNode, hm, hn]
    simp only [List.nil_append, computeExcludeListGo]
    rw [he]
    exact ⟨rfl, rfl⟩
  | cons q pre ih =>
    intro post post2 acc st hnotin hm hn
    have hq : pn ≠ q := by
      intro h
      exact hnotin (by rw [h]; exact List.mem_cons_self q pre)
    simp only [List.cons_append, computeExcludeListGo]
    cases he : evalPredicateNode table plan stn q st with
    | abort st2 => exact ⟨rfl, rfl⟩
    | ok s st2 =>
      have hm2 : st2.memo.lookup pn = none := by
        have h3 := evalPredicateNode_memo_none table plan stn q pn st hm hq
        rw [he] at h3
        exact h3
      exact ih post post2 (acc ∪ s) st2
        (fun h => hnotin (List.mem_cons_of_mem _ h)) hm2 hn

/-- C3 amended witness: on `planC`, with the failing node 2 in the
middle of the chain, the chain result is empty and independent of the
suffix after the failing node. -/
theorem normalization_failure_aborts_whole_chain_witness :
    (computeExcludeListGo exTable planC 0 ([1] ++ 2 :: [1]) ∅ st0).1 = ∅ ∧
    computeExcludeListGo exTable planC 0 ([1] ++ 2 :: [1]) ∅ st0 =
      computeExcludeListGo exTable planC 0 ([1] ++ 2 :: []) ∅ st0 :=
  normalization_failure_aborts_whole_chain exTable planC 0 2 [1] [1] [] ∅ st0
    (by decide) rfl rfl

/-- C6 counterexample: one and the same rule application, run on `planD`
once with a memo entry left over by a previous application (mapping
predicate node 1 to the exclusion set containing chunk 0) and once with
an empty memo, prunes differently: the stale run reuses the entry and
prunes chunk 0, the clean run computes an empty exclusion set and prunes
nothing — so exclusion sets do carry over across separate
applications. -/
theorem memo_not_scoped_counterexample :
    (apply_to_plan_without_subqueries planD exSM 9 ⟨[(1, {0})], [], 0⟩).toOption.map
      (fun s => (getScanM s.scans 0).pruned_chunk_ids) = some {0} ∧
    (apply_to_plan_without_subqueries planD exSM 9 st0).toOption.map
      (fun s => (getScanM s.scans 0).pruned_chunk_ids) = some ∅ := by
  exact ⟨by decide, by decide⟩

/-- C6 amended: the memo is a mutable member of the rule object that
`_apply_to_plan_without_subqueries` never clears: an entry present when
an application starts is reused verbatim by predicate evaluation, and
every entry survives the whole application, so exclusion sets persist
across separate applications on the same rule instance; the claimed
scoping holds only if each optimization uses a fresh rule instance. -/
theorem memo_persists_across_rule_applications :
    (∀ (table : Table) (plan : Plan) (stn pn : NodeId) (s : Finset ChunkID) (st : RuleState),
      st.memo.lookup pn = some s →
      evalPredicateNode table plan stn pn st = StepResult.ok s st)
    ∧ (∀ (plan : Plan) (sm : StorageManager) (fuel : Nat) (st res : RuleState),
      apply_to_plan_without_subqueries plan sm fuel st = Except.ok res →
      ∀ (q : NodeId) (s : Finset ChunkID),
      st.memo.lookup q = some s → res.memo.lookup q = some s) := by
  constructor
  · intro table plan stn pn s st h
    simp [evalPredicateNode, h]
  · intro plan sm fuel st res h q s hq
    simp only [apply_to_plan_without_subqueries] at h
    exact apply_memo_mono plan sm fuel (storedTableNodes plan) st res h q s hq

/-- C6 amended witness: a stale memo entry is reused verbatim. -/
theorem memo_persists_across_rule_applications_witness :
    evalPredicateNode exTable planD 0 1 ⟨[(1, {0})], [], 0⟩ =
      StepResult.ok {0} ⟨[(1, {0})], [], 0⟩ :=
  memo_persists_across_rule_applications.1 exTable planD 0 1 {0} ⟨[(1, {0})], [], 0⟩
    (by decide)

/-- C2 failing evaluation: on `planA` the single predicate chain holds
two predicate nodes that each exclude chunk 0 (ten rows) of the
thirty-row `exTable`.  The set of distinct excluded chunks holds ten
rows, so the claim predicts a final statistics row count of
thirty minus ten; the code, whose already-pruned guard consults only the
node's pruned-chunk-id field (unchanged until after chain evaluation),
subtracts the ten rows once per predicate and reaches ten. -/
theorem statistics_double_counting_failing_eval :
    (apply_to_plan_without_subqueries planA exSM 9 st0).toOption.map
      (fun s => ((getScanM s.scans 0).pruned_chunk_ids,
                 (getScanM s.scans 0).table_statistics.map TableStatistics.row_count))
      = some ({0}, some 10) ∧
    (10 : ℚ) ≠ 30 - 10 := by
  exact ⟨by decide, by decide⟩

/-- C10: on `planB` the two chains of the scan exclude disjoint chunk
sets, so the final pruned set is empty and the scan's pruned chunk ids
stay untouched; yet the per-predicate statistics corrections applied
during chain evaluation — before the cross-chain intersection — have
replaced the scan's statistics override, leaving a row count of ten,
down from the table's thirty. -/
theorem override_replaced_despite_empty_final_set :
    (apply_to_plan_without_subqueries planB exSM 9 st0).toOption.map
      (fun s => ((getScanM s.scans 0).pruned_chunk_ids,
                 (getScanM s.scans 0).table_statistics.map TableStatistics.row_count))
      = some (∅, some 10) ∧
    (10 : ℚ) < 30 := by
  refine ⟨by decide, by norm_num⟩

end CPR
